import Mathlib

/-!
# Verification of `CCDMultiTrack` (ADCore, `ADApp/ADSrc/CCDMultiTrack.cpp`)

Shallow embedding of the multi-track region normalizer and its facade.

Modelling conventions:
* C `int` values are modelled as `Int`; `size_t` values (`mMaxSizeY`, loop
  indices, region counts) are modelled as `Nat` where they are genuinely
  counts, and as `Int` inside mixed `int`/`size_t` arithmetic.  The fields
  `NDDimension_t.size` / `.offset` are `size_t` in C; they are modelled as
  `Int`, and `validateChecked` below re-traces every store into such a field
  and every unsigned subtraction, checking nonnegativity, so that the `Int`
  model provably agrees with the wrapping `size_t` semantics on every run.
* `std::vector<int>` is `List Int`; `v[i]` becomes `List.getD l i 0` (the
  checked variant verifies `i < l.length` at each access site).
* Diagnostic messages built by `addMessage` are modelled by the inductive
  `Msg`, one constructor per call site, carrying the formatted arguments.
* Integer division / modulus only ever happens on nonnegative operands in
  reachable runs (proved below), where Lean `Int./` and `Int.%` agree with
  the C `size_t` division in `dataHeight` and in the binning truncation.
-/

/-- One diagnostic message, one constructor per `addMessage` call site in
`CCDMultiTrack::validate`, carrying the printf arguments in order. -/
inductive Msg where
  /-- "More tracks (%d) than Y pixels" -/
  | moreTracks (n : Int)
  /-- "Track %d start (%d) less than 0" -/
  | startNeg (trk : Nat) (v : Int)
  /-- "Track %d start (%d) before end of previous (%d)" -/
  | startBeforePrev (trk : Nat) (v pe : Int)
  /-- "Track %d start (%d) beyond last row (%d)" -/
  | startBeyondLast (trk : Nat) (v last : Int)
  /-- "Track %d start (%d) leaves no space for %d more track(s)" -/
  | startNoSpace (trk : Nat) (v more : Int)
  /-- "Track %d end (%d) less than 0" -/
  | endNeg (trk : Nat) (v : Int)
  /-- "Track %d end (%d) less than start (%d)" -/
  | endLtStart (trk : Nat) (v s : Int)
  /-- "Track %d end (%d) beyond last row (%d)" -/
  | endBeyondLast (trk : Nat) (v last : Int)
  /-- "Track %d end (%d) leaves no space for %d more track(s)" -/
  | endNoSpace (trk : Nat) (v more : Int)
  /-- "Track %d binning (%d) is less than 1" (note: source passes `i`, not `i+1`) -/
  | binLt1 (trk : Nat) (v : Int)
  /-- "Track %d binning (%d) is less than track size (%zd)" -/
  | binGtSize (trk : Nat) (v sz : Int)
  /-- "Track %d binning (%d) does not divide size (%zd)" -/
  | binNotDivide (trk : Nat) (v sz : Int)
deriving DecidableEq, Repr

/-- The region record (`NDDimension_t` from `NDArray.h`): only the three
fields used by `CCDMultiTrack` are modelled.  In C, `size` and `offset` are
`size_t` and `binning` is `int`. -/
structure NDDimension where
  size : Int
  offset : Int
  binning : Int
deriving DecidableEq, Repr, Inhabited

/-- Offset-resolution cascade of `validate` (the first `if/else` chain in the
loop body), for region index `i` with previous adjusted end `prevEnd`.
`mE = mMaxSizeY`, `nR = numRegions` (post count-clamp). -/
def resolveOffset (mE nR : Nat) (uS : List Int) (i : Nat) (prevEnd : Int) :
    Int × List Msg :=
  if uS.getD i 0 < 0 then
    (0, [Msg.startNeg (i+1) (uS.getD i 0)])
  else if i > 0 ∧ uS.getD i 0 < prevEnd then
    (prevEnd, [Msg.startBeforePrev (i+1) (uS.getD i 0) prevEnd])
  else if uS.getD i 0 > (mE : Int) - 1 then
    ((mE : Int) - ((nR : Int) - (i : Int)),
      [Msg.startBeyondLast (i+1) (uS.getD i 0) ((mE : Int) - 1)])
  else if uS.getD i 0 > (mE : Int) - ((nR : Int) - (i : Int)) then
    ((mE : Int) - ((nR : Int) - (i : Int)),
      [Msg.startNoSpace (i+1) (uS.getD i 0) ((nR : Int) - (i : Int) - 1)])
  else
    (uS.getD i 0, [])

/-- Size-resolution cascade of `validate` (the second `if/else` chain),
given the already-resolved `offset`. -/
def resolveSize (mE nR : Nat) (uS uE : List Int) (i : Nat) (offset : Int) :
    Int × List Msg :=
  if i ≥ uE.length then
    (1, [])
  else if uE.getD i 0 < 0 then
    (1, [Msg.endNeg (i+1) (uE.getD i 0)])
  else if uE.getD i 0 < uS.getD i 0 then
    (1, [Msg.endLtStart (i+1) (uE.getD i 0) (uS.getD i 0)])
  else if uE.getD i 0 < offset then
    -- Start has been adjusted, so may be consequential: no message
    (1, [])
  else if uE.getD i 0 > (mE : Int) - 1 then
    ((mE : Int) - offset - ((nR : Int) - (i : Int) - 1),
      [Msg.endBeyondLast (i+1) (uE.getD i 0) ((mE : Int) - 1)])
  else if uE.getD i 0 > (mE : Int) - ((nR : Int) - (i : Int)) then
    ((mE : Int) - offset - ((nR : Int) - (i : Int) - 1),
      [Msg.endNoSpace (i+1) (uE.getD i 0) ((nR : Int) - (i : Int) - 1)])
  else
    (uE.getD i 0 + 1 - offset, [])

/-- Binning-resolution cascade of `validate` (the third `if/else` chain),
given the already-resolved size `size0`.  Returns (final size, binning,
messages); the non-dividing case truncates the size. -/
def resolveBin (uB : List Int) (i : Nat) (size0 : Int) :
    Int × Int × List Msg :=
  if i ≥ uB.length then
    (size0, size0, [])                    -- Fully binned
  else if uB.getD i 0 < 1 then
    (size0, 1, [Msg.binLt1 i (uB.getD i 0)])
  else if uB.getD i 0 > size0 then
    (size0, size0, [Msg.binGtSize i (uB.getD i 0) size0])
  else if size0 % uB.getD i 0 ≠ 0 then
    ((size0 / uB.getD i 0) * uB.getD i 0, uB.getD i 0,
      [Msg.binNotDivide i (uB.getD i 0) size0])
  else
    (size0, uB.getD i 0, [])

/-- One iteration of the `validate` loop body: resolve offset, size and
binning for region `i`, given the end (`offset+size`) of the previous
adjusted region. -/
def validateStep (mE nR : Nat) (uS uE uB : List Int) (i : Nat)
    (prevEnd : Int) : NDDimension × List Msg :=
  let o := resolveOffset mE nR uS i prevEnd
  let s := resolveSize mE nR uS uE i o.1
  let b := resolveBin uB i s.1
  (⟨b.1, o.1, b.2.1⟩, o.2 ++ s.2 ++ b.2.2)

/-- The `validate` loop from index `i` with `fuel` iterations remaining
(`fuel = nR - i` at every call), threading `prevEnd` exactly as the source
threads `regions[i-1].offset + regions[i-1].size`. -/
def validateFrom (mE nR : Nat) (uS uE uB : List Int) :
    Nat → Int → Nat → List NDDimension × List Msg
  | _, _, 0 => ([], [])
  | i, prevEnd, fuel + 1 =>
    let r := validateStep mE nR uS uE uB i prevEnd
    let rest := validateFrom mE nR uS uE uB (i+1) (r.1.offset + r.1.size) fuel
    (r.1 :: rest.1, r.2 ++ rest.2)

/-- `CCDMultiTrack::validate`: count clamp, then the per-region loop.
Returns the valid region list (`mValid`) and the messages (`mMessages`). -/
def validate (mMaxSizeY : Nat) (mUserStart mUserEnd mUserBin : List Int) :
    List NDDimension × List Msg :=
  let n0 := mUserStart.length
  let numRegions := min n0 mMaxSizeY
  let pre : List Msg := if n0 > mMaxSizeY then [Msg.moreTracks (n0 : Int)] else []
  let body := validateFrom mMaxSizeY numRegions mUserStart mUserEnd mUserBin 0 0 numRegions
  (body.1, pre ++ body.2)

/-! ## Checked re-tracing of `validate`

`validateChecked` re-traces `validate` in the `Option` monad, failing at
exactly the points where the C code could go wrong:
* every `std::vector<int>::operator[]` access is bounds-checked;
* every `size_t` subtraction is checked for underflow (result ≥ 0);
* every store of an `int` expression into a `size_t` field is checked for
  nonnegativity (a negative value would wrap on conversion).
The theorem for claim C4 proves it never fails and agrees with `validate`. -/

/-- Bounds-checked `v[i]` for `std::vector<int>`. -/
def chkIdx (l : List Int) (i : Nat) : Option Int :=
  if h : i < l.length then some (l.get ⟨i, h⟩) else none

/-- Checked conversion/store into an unsigned (`size_t`) location: fails if
the mathematical value is negative (C would wrap it). -/
def chkNonneg (x : Int) : Option Int :=
  if 0 ≤ x then some x else none

/-- Checked `resolveOffset`. -/
def resolveOffsetChecked (mE nR : Nat) (uS : List Int) (i : Nat)
    (prevEnd : Int) : Option (Int × List Msg) :=
  (chkIdx uS i).bind fun sU =>
    if sU < 0 then
      some (0, [Msg.startNeg (i+1) sU])
    else if i > 0 ∧ sU < prevEnd then
      -- `region.offset = prevEnd`: int stored into size_t
      (chkNonneg prevEnd).bind fun o =>
        some (o, [Msg.startBeforePrev (i+1) sU prevEnd])
    else if sU > (mE : Int) - 1 then
      -- `mMaxSizeY - (numRegions - i)` computed in size_t
      (chkNonneg ((mE : Int) - ((nR : Int) - (i : Int)))).bind fun o =>
        some (o, [Msg.startBeyondLast (i+1) sU ((mE : Int) - 1)])
    else
      -- the fourth branch condition itself computes `mMaxSizeY - (numRegions - i)`
      (chkNonneg ((mE : Int) - ((nR : Int) - (i : Int)))).bind fun lim =>
        if sU > lim then
          some (lim, [Msg.startNoSpace (i+1) sU ((nR : Int) - (i : Int) - 1)])
        else
          some (sU, [])

/-- Checked `resolveSize`. -/
def resolveSizeChecked (mE nR : Nat) (uS uE : List Int) (i : Nat)
    (offset : Int) : Option (Int × List Msg) :=
  if i ≥ uE.length then
    some (1, [])
  else
    (chkIdx uE i).bind fun eU =>
    (chkIdx uS i).bind fun sU =>
    if eU < 0 then
      some (1, [Msg.endNeg (i+1) eU])
    else if eU < sU then
      some (1, [Msg.endLtStart (i+1) eU sU])
    else if eU < offset then
      some (1, [])
    else if eU > (mE : Int) - 1 then
      -- `mMaxSizeY - region.offset - (numRegions - i - 1)` in size_t
      (chkNonneg ((mE : Int) - offset - ((nR : Int) - (i : Int) - 1))).bind fun sz =>
        some (sz, [Msg.endBeyondLast (i+1) eU ((mE : Int) - 1)])
    else
      (chkNonneg ((mE : Int) - ((nR : Int) - (i : Int)))).bind fun lim =>
        if eU > lim then
          (chkNonneg ((mE : Int) - offset - ((nR : Int) - (i : Int) - 1))).bind fun sz =>
            some (sz, [Msg.endNoSpace (i+1) eU ((nR : Int) - (i : Int) - 1)])
        else
          -- `region.size = mUserEnd[i] + 1 - region.offset`: int into size_t
          (chkNonneg (eU + 1 - offset)).bind fun sz =>
            some (sz, [])

/-- Checked `resolveBin`. -/
def resolveBinChecked (uB : List Int) (i : Nat) (size0 : Int) :
    Option (Int × Int × List Msg) :=
  if i ≥ uB.length then
    some (size0, size0, [])
  else
    (chkIdx uB i).bind fun bU =>
    if bU < 1 then
      some (size0, 1, [Msg.binLt1 i bU])
    else if bU > size0 then
      some (size0, size0, [Msg.binGtSize i bU size0])
    else if size0 % bU ≠ 0 then
      -- `(region.size / region.binning) * region.binning`: size_t division,
      -- result stored back into size_t size
      (chkNonneg ((size0 / bU) * bU)).bind fun sz =>
        some (sz, bU, [Msg.binNotDivide i bU size0])
    else
      some (size0, bU, [])

/-- Checked `validateStep`. -/
def validateStepChecked (mE nR : Nat) (uS uE uB : List Int) (i : Nat)
    (prevEnd : Int) : Option (NDDimension × List Msg) :=
  (resolveOffsetChecked mE nR uS i prevEnd).bind fun o =>
  (resolveSizeChecked mE nR uS uE i o.1).bind fun s =>
  (resolveBinChecked uB i s.1).bind fun b =>
  some (⟨b.1, o.1, b.2.1⟩, o.2 ++ s.2 ++ b.2.2)

/-- Checked `validateFrom`. -/
def validateFromChecked (mE nR : Nat) (uS uE uB : List Int) :
    Nat → Int → Nat → Option (List NDDimension × List Msg)
  | _, _, 0 => some ([], [])
  | i, prevEnd, fuel + 1 =>
    (validateStepChecked mE nR uS uE uB i prevEnd).bind fun r =>
    (validateFromChecked mE nR uS uE uB (i+1) (r.1.offset + r.1.size) fuel).bind fun rest =>
    some (r.1 :: rest.1, r.2 ++ rest.2)

/-- Checked `validate`. -/
def validateChecked (mMaxSizeY : Nat) (mUserStart mUserEnd mUserBin : List Int) :
    Option (List NDDimension × List Msg) :=
  let n0 := mUserStart.length
  let numRegions := min n0 mMaxSizeY
  let pre : List Msg := if n0 > mMaxSizeY then [Msg.moreTracks (n0 : Int)] else []
  (validateFromChecked mMaxSizeY numRegions mUserStart mUserEnd mUserBin 0 0 numRegions).bind
    fun body => some (body.1, pre ++ body.2)

/-! ## Facade (`CCDMultiTrack` class state and methods) -/

/-- `asynStatus`, restricted to the two values the class produces. -/
inductive AsynStatus where
  | asynSuccess
  | asynError
deriving DecidableEq, Repr

/-- The `pasynUser->reason` parameter index, matched against the three
indices created in the constructor; `other` stands for any unknown index. -/
inductive FunctionParam where
  | ccdMultiTrackStart
  | ccdMultiTrackEnd
  | ccdMultiTrackBin
  | other (k : Int)
deriving DecidableEq, Repr

/-- The three arrays pushed by `_validate` through `doCallbacksInt32Array`. -/
structure Published where
  validStart : List Int
  validEnd : List Int
  validBin : List Int
deriving DecidableEq, Repr

/-- The mutable state of a `CCDMultiTrack` instance (the fields the claims
are about; the port-driver pointer and parameter indices are external). -/
structure CCDMultiTrack where
  mMaxSizeY : Nat
  mUserStart : List Int
  mUserEnd : List Int
  mUserBin : List Int
  mValid : List NDDimension
  mMessages : List Msg
deriving DecidableEq, Repr

namespace CCDMultiTrack

/-- State after the constructor: empty arrays, `mMaxSizeY = 5000`. -/
def initState : CCDMultiTrack :=
  { mMaxSizeY := 5000, mUserStart := [], mUserEnd := [], mUserBin := [],
    mValid := [], mMessages := [] }

/-- The `validate(pasynUser)` virtual method: recompute `mValid` and
`mMessages` from the stored user arrays. -/
def runValidate (s : CCDMultiTrack) : CCDMultiTrack :=
  let vm := validate s.mMaxSizeY s.mUserStart s.mUserEnd s.mUserBin
  { s with mValid := vm.1, mMessages := vm.2 }

/-- The write-back part of `_validate`: the three adjusted arrays pushed to
the parameter layer. -/
def publishArrays (s : CCDMultiTrack) : Published :=
  { validStart := s.mValid.map (fun r => r.offset)
    validEnd := s.mValid.map (fun r => r.offset + r.size - 1)
    validBin := s.mValid.map (fun r => r.binning) }

/-- `CCDMultiTrack::setMaxSize`: store the new Y size, re-validate,
publish. -/
def setMaxSize (s : CCDMultiTrack) (maxSizeY : Nat) :
    CCDMultiTrack × Published :=
  let s2 := runValidate { s with mMaxSizeY := maxSizeY }
  (s2, publishArrays s2)

/-- `CCDMultiTrack::writeInt32Array`: returns the `asynStatus`, the new
state, and the publication event (if `_validate` ran). -/
def writeInt32Array (s : CCDMultiTrack) (function : FunctionParam)
    (value : List Int) : AsynStatus × CCDMultiTrack × Option Published :=
  match function with
  | .ccdMultiTrackStart =>
    if value = s.mUserStart then (.asynSuccess, s, none)
    else
      let s2 := runValidate { s with mUserStart := value }
      (.asynSuccess, s2, some (publishArrays s2))
  | .ccdMultiTrackEnd =>
    if value = s.mUserEnd then (.asynSuccess, s, none)
    else
      let s2 := runValidate { s with mUserEnd := value }
      (.asynSuccess, s2, some (publishArrays s2))
  | .ccdMultiTrackBin =>
    if value = s.mUserBin then (.asynSuccess, s, none)
    else
      let s2 := runValidate { s with mUserBin := value }
      (.asynSuccess, s2, some (publishArrays s2))
  | .other _ => (.asynError, s, none)

/-- `CCDMultiTrack::dataHeight`: `size / binning` for a valid track, else 0. -/
def dataHeight (s : CCDMultiTrack) (trackNum : Nat) : Int :=
  if h : trackNum < s.mValid.length then
    (s.mValid.get ⟨trackNum, h⟩).size / (s.mValid.get ⟨trackNum, h⟩).binning
  else 0

/-- `CCDMultiTrack::totalDataHeight`: sum of `dataHeight` over all tracks. -/
def totalDataHeight (s : CCDMultiTrack) : Int :=
  (List.range s.mValid.length).foldl (fun acc i => acc + s.dataHeight i) 0

/-- States reachable from construction through the public mutators. -/
inductive Reachable : CCDMultiTrack → Prop where
  | init : Reachable initState
  | write (s : CCDMultiTrack) (f : FunctionParam) (v : List Int) :
      Reachable s → Reachable (writeInt32Array s f v).2.1
  | setMax (s : CCDMultiTrack) (n : Nat) :
      Reachable s → Reachable (setMaxSize s n).1

end CCDMultiTrack

/-- `prevEnd`-chaining check: each region starts no earlier than the end of
the previous adjusted region (the spec's ordering invariant), threading from
an initial bound. -/
def chainFrom (prevEnd : Int) : List NDDimension → Bool
  | [] => true
  | r :: rest => decide (prevEnd ≤ r.offset) && chainFrom (r.offset + r.size) rest

/-- Structural invariants of the regions produced by the `validate` loop from
index `i` on: nonnegative offset, positive size, the span leaves one row for
each remaining region, and well-formed binning. -/
def RegionsOK (mE nR : Nat) : Nat → List NDDimension → Prop
  | _, [] => True
  | i, r :: rest =>
      (0 ≤ r.offset ∧ 1 ≤ r.size ∧
       r.offset + r.size ≤ (mE : Int) - ((nR : Int) - (i : Int) - 1) ∧
       1 ≤ r.binning ∧ r.binning ≤ r.size ∧ r.size % r.binning = 0) ∧
      RegionsOK mE nR (i+1) rest

/-- The user arrays agree, from position `i` on, with the readback values of
a region list: `start = offset`, `end = offset + size - 1`, `bin = binning`,
and every position is in range of all three arrays. -/
def AgreesFrom (uS uE uB : List Int) : Nat → List NDDimension → Prop
  | _, [] => True
  | i, r :: rest =>
      i < uS.length ∧ i < uE.length ∧ i < uB.length ∧
      uS.getD i 0 = r.offset ∧ uE.getD i 0 = r.offset + r.size - 1 ∧
      uB.getD i 0 = r.binning ∧ AgreesFrom uS uE uB (i+1) rest

/-! ## Invariants of the resolution cascades -/

/-- The resolved offset is nonnegative, leaves one row for each remaining
region, and (for `i > 0` with a nonnegative requested start) is at least the
end of the previous adjusted region. -/
theorem resolveOffset_spec (mE nR : Nat) (uS : List Int) (i : Nat)
    (prevEnd : Int) (hi : i < nR) (hp0 : 0 ≤ prevEnd)
    (hp1 : prevEnd ≤ (mE : Int) - ((nR : Int) - (i : Int))) :
    0 ≤ (resolveOffset mE nR uS i prevEnd).1 ∧
    (resolveOffset mE nR uS i prevEnd).1 ≤ (mE : Int) - ((nR : Int) - (i : Int)) ∧
    (0 < i → 0 ≤ uS.getD i 0 → prevEnd ≤ (resolveOffset mE nR uS i prevEnd).1) := by
  unfold resolveOffset
  split_ifs with h1 h2 h3 h4 <;> dsimp only <;>
    exact ⟨by omega, by omega, fun hi0 hs0 => by omega⟩

/-- The resolved size is at least 1 and the resulting span leaves one row
for each remaining region. -/
theorem resolveSize_spec (mE nR : Nat) (uS uE : List Int) (i : Nat)
    (offset : Int) (hi : i < nR) (ho0 : 0 ≤ offset)
    (ho1 : offset ≤ (mE : Int) - ((nR : Int) - (i : Int))) :
    1 ≤ (resolveSize mE nR uS uE i offset).1 ∧
    offset + (resolveSize mE nR uS uE i offset).1 ≤
      (mE : Int) - ((nR : Int) - (i : Int) - 1) := by
  unfold resolveSize
  split_ifs with h1 h2 h3 h4 h5 h6 <;> dsimp only <;>
    exact ⟨by omega, by omega⟩

/-- Helper: the truncated size `(size0 / b) * b` stays in `[b, size0]` and is
divisible by `b`, for `1 ≤ b ≤ size0`. -/
theorem truncSize_spec (size0 b : Int) (hb : 1 ≤ b) (hbs : b ≤ size0) :
    b ≤ size0 / b * b ∧ size0 / b * b ≤ size0 ∧ size0 / b * b % b = 0 := by
  have hb0 : (0 : Int) < b := by omega
  have hq : 1 ≤ size0 / b := by
    rw [Int.le_ediv_iff_mul_le hb0]
    omega
  refine ⟨le_mul_of_one_le_left (by omega) hq, Int.ediv_mul_le size0 (by omega),
    Int.mul_emod_left _ _⟩

/-- The resolved binning is in `[1, size]`, divides the final size, and the
final size is positive and no larger than the incoming size. -/
theorem resolveBin_spec (uB : List Int) (i : Nat) (size0 : Int)
    (hs : 1 ≤ size0) :
    1 ≤ (resolveBin uB i size0).1 ∧
    (resolveBin uB i size0).1 ≤ size0 ∧
    1 ≤ (resolveBin uB i size0).2.1 ∧
    (resolveBin uB i size0).2.1 ≤ (resolveBin uB i size0).1 ∧
    (resolveBin uB i size0).1 % (resolveBin uB i size0).2.1 = 0 := by
  unfold resolveBin
  split_ifs with h1 h2 h3 h4 <;> dsimp only
  · exact ⟨hs, le_refl _, hs, le_refl _, Int.emod_self⟩
  · exact ⟨hs, le_refl _, le_refl 1, hs, Int.emod_one size0⟩
  · exact ⟨hs, le_refl _, hs, le_refl _, Int.emod_self⟩
  · -- truncation branch: size becomes `(size0 / bU) * bU`
    obtain ⟨t1, t2, t3⟩ := truncSize_spec size0 (uB.getD i 0) (by omega) (by omega)
    exact ⟨by omega, t2, by omega, t1, t3⟩
  · exact ⟨hs, le_refl _, by omega, by omega, by omega⟩

/-- Combined per-iteration invariant: the region produced by `validateStep`
has nonnegative offset, positive size, a span leaving one row per remaining
region, well-formed binning, and (for `i > 0` with nonnegative requested
start) starts no earlier than the previous adjusted end. -/
theorem validateStep_spec (mE nR : Nat) (uS uE uB : List Int) (i : Nat)
    (prevEnd : Int) (hi : i < nR) (hp0 : 0 ≤ prevEnd)
    (hp1 : prevEnd ≤ (mE : Int) - ((nR : Int) - (i : Int))) :
    0 ≤ (validateStep mE nR uS uE uB i prevEnd).1.offset ∧
    1 ≤ (validateStep mE nR uS uE uB i prevEnd).1.size ∧
    (validateStep mE nR uS uE uB i prevEnd).1.offset +
        (validateStep mE nR uS uE uB i prevEnd).1.size ≤
      (mE : Int) - ((nR : Int) - (i : Int) - 1) ∧
    1 ≤ (validateStep mE nR uS uE uB i prevEnd).1.binning ∧
    (validateStep mE nR uS uE uB i prevEnd).1.binning ≤
      (validateStep mE nR uS uE uB i prevEnd).1.size ∧
    (validateStep mE nR uS uE uB i prevEnd).1.size %
      (validateStep mE nR uS uE uB i prevEnd).1.binning = 0 ∧
    (0 < i → 0 ≤ uS.getD i 0 →
      prevEnd ≤ (validateStep mE nR uS uE uB i prevEnd).1.offset) := by
  obtain ⟨o1, o2, o3⟩ := resolveOffset_spec mE nR uS i prevEnd hi hp0 hp1
  obtain ⟨s1, s2⟩ := resolveSize_spec mE nR uS uE i
    (resolveOffset mE nR uS i prevEnd).1 hi o1 o2
  obtain ⟨b1, b2, b3, b4, b5⟩ := resolveBin_spec uB i
    (resolveSize mE nR uS uE i (resolveOffset mE nR uS i prevEnd).1).1 s1
  simp only [validateStep]
  exact ⟨o1, b1, by omega, b3, b4, b5, o3⟩

/-- The loop produces exactly `fuel` regions. -/
theorem validateFrom_length (mE nR : Nat) (uS uE uB : List Int) :
    ∀ fuel i prevEnd,
      (validateFrom mE nR uS uE uB i prevEnd fuel).1.length = fuel := by
  intro fuel
  induction fuel with
  | zero => intro i prevEnd; rfl
  | succ fuel ih =>
    intro i prevEnd
    simp only [validateFrom, List.length_cons, ih]

/-- The loop maintains the structural invariants from any well-placed start
state (`i + fuel = nR`, carried `prevEnd` within bounds). -/
theorem validateFrom_ok (mE nR : Nat) (uS uE uB : List Int) :
    ∀ fuel i prevEnd, i + fuel = nR → 0 ≤ prevEnd →
      prevEnd ≤ (mE : Int) - ((nR : Int) - (i : Int)) →
      RegionsOK mE nR i (validateFrom mE nR uS uE uB i prevEnd fuel).1 := by
  intro fuel
  induction fuel with
  | zero =>
    intro i prevEnd _ _ _
    simp [validateFrom, RegionsOK]
  | succ fuel ih =>
    intro i prevEnd hif hp0 hp1
    have hi : i < nR := by omega
    obtain ⟨h1, h2, h3, h4, h5, h6, _⟩ :=
      validateStep_spec mE nR uS uE uB i prevEnd hi hp0 hp1
    simp only [validateFrom, RegionsOK]
    refine ⟨⟨h1, h2, h3, h4, h5, h6⟩, ?_⟩
    exact ih (i+1) _ (by omega) (by omega) (by push_cast; omega)

/-- The region list of `validate` satisfies the structural invariants, with
`numRegions = min (length userStart) maxExtent`. -/
theorem validate_ok (mE : Nat) (uS uE uB : List Int) :
    RegionsOK mE (min uS.length mE) 0 (validate mE uS uE uB).1 := by
  have h := validateFrom_ok mE (min uS.length mE) uS uE uB
    (min uS.length mE) 0 0 (by omega) le_rfl (by omega)
  simpa [validate] using h

/-- Per-index reading of `RegionsOK`. -/
theorem RegionsOK_getD (mE nR : Nat) :
    ∀ (rs : List NDDimension) (i j : Nat), j < rs.length →
      RegionsOK mE nR i rs →
      0 ≤ (rs.getD j default).offset ∧ 1 ≤ (rs.getD j default).size ∧
      (rs.getD j default).offset + (rs.getD j default).size ≤
        (mE : Int) - (nR : Int) + (i : Int) + (j : Int) + 1 ∧
      1 ≤ (rs.getD j default).binning ∧
      (rs.getD j default).binning ≤ (rs.getD j default).size ∧
      (rs.getD j default).size % (rs.getD j default).binning = 0 := by
  intro rs
  induction rs with
  | nil => intro i j hj _; simp at hj
  | cons a l ih =>
    intro i j hj hOK
    obtain ⟨⟨p1, p2, p3, p4, p5, p6⟩, hrest⟩ := hOK
    cases j with
    | zero =>
      simp only [List.getD_cons_zero]
      exact ⟨p1, p2, by omega, p4, p5, p6⟩
    | succ j =>
      have hj2 : j < l.length := by simpa using hj
      obtain ⟨q1, q2, q3, q4, q5, q6⟩ := ih (i+1) j hj2 hrest
      simp only [List.getD_cons_succ]
      exact ⟨q1, q2, by push_cast at q3 ⊢; omega, q4, q5, q6⟩

/-- Every region in a `RegionsOK` list has binning at least 1. -/
theorem RegionsOK_mem_binning (mE nR : Nat) :
    ∀ (rs : List NDDimension) (i : Nat), RegionsOK mE nR i rs →
      ∀ r ∈ rs, 1 ≤ r.binning := by
  intro rs
  induction rs with
  | nil => intro i _ r hr; cases hr
  | cons a l ih =>
    intro i hOK r hr
    obtain ⟨⟨_, _, _, p4, _, _⟩, hrest⟩ := hOK
    rcases List.mem_cons.mp hr with h | h
    · subst h; exact p4
    · exact ih (i+1) hrest r h

/-- Consecutive regions produced by the loop are ordered whenever the second
one's requested start is nonnegative: region `j+1` starts no earlier than the
end of region `j`. -/
theorem validateFrom_pairs (mE nR : Nat) (uS uE uB : List Int) :
    ∀ fuel i prevEnd j, i + fuel = nR → 0 ≤ prevEnd →
      prevEnd ≤ (mE : Int) - ((nR : Int) - (i : Int)) →
      j + 1 < fuel →
      0 ≤ uS.getD (i + j + 1) 0 →
      ((validateFrom mE nR uS uE uB i prevEnd fuel).1.getD j default).offset +
        ((validateFrom mE nR uS uE uB i prevEnd fuel).1.getD j default).size ≤
      ((validateFrom mE nR uS uE uB i prevEnd fuel).1.getD (j+1) default).offset := by
  intro fuel
  induction fuel with
  | zero => intro i prevEnd j _ _ _ hj _; omega
  | succ fuel ih =>
    intro i prevEnd j hif hp0 hp1 hj hs
    obtain ⟨h1, h2, h3, _, _, _, _⟩ :=
      validateStep_spec mE nR uS uE uB i prevEnd (by omega) hp0 hp1
    cases j with
    | zero =>
      cases fuel with
      | zero => omega
      | succ fuel2 =>
        simp only [validateFrom, List.getD_cons_zero, List.getD_cons_succ]
        obtain ⟨_, _, _, _, _, _, hord⟩ :=
          validateStep_spec mE nR uS uE uB (i+1)
            ((validateStep mE nR uS uE uB i prevEnd).1.offset +
              (validateStep mE nR uS uE uB i prevEnd).1.size)
            (by omega) (by omega) (by push_cast; omega)
        exact hord (by omega) hs
    | succ j =>
      simp only [validateFrom, List.getD_cons_succ]
      have hidx : i + (j + 1) + 1 = (i + 1) + j + 1 := by omega
      rw [hidx] at hs
      exact ih (i+1) _ j (by omega) (by omega)
        (by push_cast; omega) (by omega) hs

/-- A `validateStep` run on the readback values of an already-valid region
reproduces the region exactly, with no message. -/
theorem validateStep_self (mE nR : Nat) (uS uE uB : List Int) (i : Nat)
    (prevEnd : Int) (r : NDDimension)
    (hi : i < nR) (hnm : nR ≤ mE)
    (hOK1 : 0 ≤ r.offset) (hOK2 : 1 ≤ r.size)
    (hOK3 : r.offset + r.size ≤ (mE : Int) - ((nR : Int) - (i : Int) - 1))
    (hOK4 : 1 ≤ r.binning) (hOK5 : r.binning ≤ r.size)
    (hOK6 : r.size % r.binning = 0)
    (hE : i < uE.length) (hB : i < uB.length)
    (hvS : uS.getD i 0 = r.offset)
    (hvE : uE.getD i 0 = r.offset + r.size - 1)
    (hvB : uB.getD i 0 = r.binning)
    (hch : prevEnd ≤ r.offset) :
    validateStep mE nR uS uE uB i prevEnd = (r, []) := by
  have ho : resolveOffset mE nR uS i prevEnd = (r.offset, []) := by
    unfold resolveOffset
    rw [hvS, if_neg (by omega), if_neg (by omega), if_neg (by omega),
      if_neg (by omega)]
  have hsz : resolveSize mE nR uS uE i r.offset = (r.size, []) := by
    unfold resolveSize
    rw [hvE, hvS, if_neg (by omega), if_neg (by omega), if_neg (by omega),
      if_neg (by omega), if_neg (by omega), if_neg (by omega)]
    have harith : r.offset + r.size - 1 + 1 - r.offset = r.size := by ring
    rw [harith]
  have hb : resolveBin uB i r.size = (r.size, r.binning, []) := by
    unfold resolveBin
    rw [hvB, if_neg (by omega), if_neg (by omega), if_neg (by omega),
      if_neg (fun h => h hOK6)]
  simp only [validateStep, ho, hsz, hb]
  rfl

/-- `AgreesFrom` is stable under prepending one element to each user array
while shifting the position by one. -/
theorem AgreesFrom_shift (x y z : Int) (uS uE uB : List Int) :
    ∀ (rs : List NDDimension) (i : Nat), AgreesFrom uS uE uB i rs →
      AgreesFrom (x :: uS) (y :: uE) (z :: uB) (i+1) rs := by
  intro rs
  induction rs with
  | nil => intro i _; trivial
  | cons r rest ih =>
    intro i h
    obtain ⟨a1, a2, a3, a4, a5, a6, h2⟩ := h
    exact ⟨by simpa using a1, by simpa using a2, by simpa using a3,
      by simpa using a4, by simpa using a5, by simpa using a6, ih (i+1) h2⟩

/-- The readback arrays of a region list (`offset`, `offset + size - 1`,
`binning`) agree with the list from position 0. -/
theorem AgreesFrom_map :
    ∀ (rs : List NDDimension),
      AgreesFrom (rs.map fun r => r.offset)
        (rs.map fun r => r.offset + r.size - 1)
        (rs.map fun r => r.binning) 0 rs := by
  intro rs
  induction rs with
  | nil => trivial
  | cons r rest ih =>
    simp only [List.map_cons]
    exact ⟨by simp, by simp, by simp, rfl, rfl, rfl,
      AgreesFrom_shift _ _ _ _ _ _ rest 0 ih⟩

/-- Re-running the loop on the readback values of an already-valid, ordered
region list reproduces the list exactly, with no messages. -/
theorem validateFrom_self (mE nR : Nat) (uS uE uB : List Int) :
    ∀ (rs : List NDDimension) (i : Nat) (prevEnd : Int),
      i + rs.length = nR → nR ≤ mE → 0 ≤ prevEnd →
      RegionsOK mE nR i rs → AgreesFrom uS uE uB i rs →
      chainFrom prevEnd rs = true →
      validateFrom mE nR uS uE uB i prevEnd rs.length = (rs, []) := by
  intro rs
  induction rs with
  | nil => intro i prevEnd _ _ _ _ _ _; rfl
  | cons r rest ih =>
    intro i prevEnd hlen hnm hp0 hOK hAg hch
    obtain ⟨⟨p1, p2, p3, p4, p5, p6⟩, hOK2⟩ := hOK
    obtain ⟨a1, a2, a3, a4, a5, a6, hAg2⟩ := hAg
    simp only [chainFrom, Bool.and_eq_true, decide_eq_true_eq] at hch
    obtain ⟨hch1, hch2⟩ := hch
    have hlen2 : i + (rest.length + 1) = nR := by simpa using hlen
    have hstep := validateStep_self mE nR uS uE uB i prevEnd r
      (by omega) hnm p1 p2 p3 p4 p5 p6 a2 a3 a4 a5 a6 hch1
    show validateFrom mE nR uS uE uB i prevEnd (rest.length + 1) = (r :: rest, [])
    simp only [validateFrom, hstep]
    rw [ih (i+1) (r.offset + r.size) (by omega) hnm (by omega) hOK2 hAg2 hch2]
    rfl

/-! ## The checked run never fails and agrees with `validate` (claim C4) -/

/-- In-bounds vector access succeeds and yields the `getD` value. -/
theorem chkIdx_eq (l : List Int) (i : Nat) (h : i < l.length) :
    chkIdx l i = some (l.getD i 0) := by
  unfold chkIdx
  rw [dif_pos h, List.getD_eq_get l 0 h]

/-- A nonnegative store into a `size_t` location succeeds. -/
theorem chkNonneg_eq (x : Int) (h : 0 ≤ x) : chkNonneg x = some x := by
  unfold chkNonneg
  rw [if_pos h]

/-- The checked offset resolution succeeds under the loop invariant. -/
theorem resolveOffsetChecked_eq (mE nR : Nat) (uS : List Int) (i : Nat)
    (prevEnd : Int) (hi : i < nR) (hnm : nR ≤ mE) (hlen : i < uS.length)
    (hp0 : 0 ≤ prevEnd) :
    resolveOffsetChecked mE nR uS i prevEnd =
      some (resolveOffset mE nR uS i prevEnd) := by
  unfold resolveOffsetChecked resolveOffset
  rw [chkIdx_eq uS i hlen,
    chkNonneg_eq prevEnd hp0, chkNonneg_eq ((mE : Int) - ((nR : Int) - (i : Int))) (by omega)]
  simp only [Option.some_bind]
  split_ifs <;> rfl

/-- The checked size resolution succeeds under the loop invariant. -/
theorem resolveSizeChecked_eq (mE nR : Nat) (uS uE : List Int) (i : Nat)
    (offset : Int) (hi : i < nR) (hnm : nR ≤ mE) (hlenS : i < uS.length)
    (ho0 : 0 ≤ offset) (ho1 : offset ≤ (mE : Int) - ((nR : Int) - (i : Int))) :
    resolveSizeChecked mE nR uS uE i offset =
      some (resolveSize mE nR uS uE i offset) := by
  unfold resolveSizeChecked resolveSize
  by_cases h1 : i ≥ uE.length
  · rw [if_pos h1, if_pos h1]
  · rw [if_neg h1, if_neg h1, chkIdx_eq uE i (by omega), chkIdx_eq uS i hlenS,
      chkNonneg_eq ((mE : Int) - offset - ((nR : Int) - (i : Int) - 1)) (by omega),
      chkNonneg_eq ((mE : Int) - ((nR : Int) - (i : Int))) (by omega)]
    simp only [Option.some_bind]
    split_ifs with h2 h3 h4 h5 h6
    · rfl
    · rfl
    · rfl
    · rfl
    · rfl
    · rw [chkNonneg_eq (uE.getD i 0 + 1 - offset) (by omega)]
      simp only [Option.some_bind]

/-- The checked binning resolution succeeds for a positive incoming size. -/
theorem resolveBinChecked_eq (uB : List Int) (i : Nat) (size0 : Int)
    (hs : 1 ≤ size0) :
    resolveBinChecked uB i size0 = some (resolveBin uB i size0) := by
  unfold resolveBinChecked resolveBin
  by_cases h1 : i ≥ uB.length
  · rw [if_pos h1, if_pos h1]
  · rw [if_neg h1, if_neg h1, chkIdx_eq uB i (by omega)]
    simp only [Option.some_bind]
    split_ifs with h2 h3 h4
    · rfl
    · rfl
    · obtain ⟨t1, t2, t3⟩ := truncSize_spec size0 (uB.getD i 0) (by omega) (by omega)
      rw [chkNonneg_eq (size0 / uB.getD i 0 * uB.getD i 0) (by omega)]
      simp only [Option.some_bind]
    · rfl

/-- The checked loop body succeeds under the loop invariant and agrees with
`validateStep`. -/
theorem validateStepChecked_eq (mE nR : Nat) (uS uE uB : List Int) (i : Nat)
    (prevEnd : Int) (hi : i < nR) (hnm : nR ≤ mE) (hlen : i < uS.length)
    (hp0 : 0 ≤ prevEnd)
    (hp1 : prevEnd ≤ (mE : Int) - ((nR : Int) - (i : Int))) :
    validateStepChecked mE nR uS uE uB i prevEnd =
      some (validateStep mE nR uS uE uB i prevEnd) := by
  obtain ⟨o1, o2, _⟩ := resolveOffset_spec mE nR uS i prevEnd hi hp0 hp1
  obtain ⟨s1, _⟩ := resolveSize_spec mE nR uS uE i
    (resolveOffset mE nR uS i prevEnd).1 hi o1 o2
  unfold validateStepChecked
  rw [resolveOffsetChecked_eq mE nR uS i prevEnd hi hnm hlen hp0]
  simp only [Option.some_bind]
  rw [resolveSizeChecked_eq mE nR uS uE i _ hi hnm hlen o1 o2]
  simp only [Option.some_bind]
  rw [resolveBinChecked_eq uB i _ s1]
  simp only [Option.some_bind]
  rfl

/-- The checked loop succeeds from any well-placed start state and agrees
with `validateFrom`. -/
theorem validateFromChecked_eq (mE nR : Nat) (uS uE uB : List Int)
    (hnm : nR ≤ mE) (hlen : nR ≤ uS.length) :
    ∀ fuel i prevEnd, i + fuel = nR → 0 ≤ prevEnd →
      prevEnd ≤ (mE : Int) - ((nR : Int) - (i : Int)) →
      validateFromChecked mE nR uS uE uB i prevEnd fuel =
        some (validateFrom mE nR uS uE uB i prevEnd fuel) := by
  intro fuel
  induction fuel with
  | zero => intro i prevEnd _ _ _; rfl
  | succ fuel ih =>
    intro i prevEnd hif hp0 hp1
    obtain ⟨h1, h2, h3, _, _, _, _⟩ :=
      validateStep_spec mE nR uS uE uB i prevEnd (by omega) hp0 hp1
    simp only [validateFromChecked]
    rw [validateStepChecked_eq mE nR uS uE uB i prevEnd (by omega) hnm
      (by omega) hp0 hp1]
    simp only [Option.some_bind]
    rw [ih (i+1) _ (by omega) (by omega) (by push_cast; omega)]
    simp only [Option.some_bind]
    rfl

/-- Claim C4: for every triple of integer sequences and every nonnegative
`maxExtent`, `validate` terminates without failure: no out-of-range vector
access and no unsigned-arithmetic underflow occurs (the checked re-tracing
`validateChecked` succeeds), and the result is the region list plus messages
of `validate`. -/
theorem claim_C4_totality (mE : Nat) (uS uE uB : List Int) :
    validateChecked mE uS uE uB = some (validate mE uS uE uB) := by
  simp only [validateChecked, validate]
  rw [validateFromChecked_eq mE (min uS.length mE) uS uE uB (by omega)
    (by omega) (min uS.length mE) 0 0 (by omega) le_rfl (by omega)]
  simp only [Option.some_bind]

/-- The number of regions `validate` produces is
`min (length userStart) maxExtent`. -/
theorem validate_length (mE : Nat) (uS uE uB : List Int) :
    (validate mE uS uE uB).1.length = min uS.length mE := by
  simp only [validate]
  rw [validateFrom_length]

/-- Every region `validate` produces has binning at least 1. -/
theorem validate_mem_binning (mE : Nat) (uS uE uB : List Int) :
    ∀ r ∈ (validate mE uS uE uB).1, 1 ≤ r.binning :=
  RegionsOK_mem_binning mE (min uS.length mE) _ 0 (validate_ok mE uS uE uB)

/-! ## Claims -/

/-- Claim C1 is false as stated: with `maxExtent = 10`,
`userStart = [0, -1]`, `userEnd = userBin = []`, region 0 is
`{offset 0, size 1}` but region 1 also gets offset 0, because the
negative-start branch (`userStart[i] < 0 → offset = 0`) is tested *before*
the previous-end branch and clamps to 0 regardless of the previous region.
So `region[1].offset < region[0].offset + region[0].size`. -/
theorem claim_C1_counterexample :
    ¬ (((validate 10 [0, -1] [] []).1.getD 0 default).offset +
        ((validate 10 [0, -1] [] []).1.getD 0 default).size ≤
       ((validate 10 [0, -1] [] []).1.getD 1 default).offset) := by
  decide

/-- Claim C1 (amended): for every input and every index `i > 0` of the
region list produced by `validate` *whose requested start `userStart[i]` is
nonnegative*, `region[i].offset ≥ region[i-1].offset + region[i-1].size`.
(The unamended claim fails exactly when `userStart[i] < 0`, whose branch
clamps to 0 without regard to the previous region.) -/
theorem claim_C1_ordering (mE : Nat) (uS uE uB : List Int) (i : Nat)
    (hi : 0 < i) (hlen : i < (validate mE uS uE uB).1.length)
    (hpos : 0 ≤ uS.getD i 0) :
    ((validate mE uS uE uB).1.getD (i-1) default).offset +
      ((validate mE uS uE uB).1.getD (i-1) default).size ≤
    ((validate mE uS uE uB).1.getD i default).offset := by
  rw [validate_length] at hlen
  obtain ⟨j, rfl⟩ : ∃ j, i = j + 1 := ⟨i - 1, by omega⟩
  have hp := validateFrom_pairs mE (min uS.length mE) uS uE uB
    (min uS.length mE) 0 0 j (by omega) le_rfl (by omega) (by omega)
    (by simpa using hpos)
  simp only [validate]
  simpa using hp

/-- Witness for the amended claim C1 at `maxExtent = 10`,
`userStart = [2, 5]`. -/
theorem claim_C1_ordering_witness :
    ((validate 10 [2, 5] [] []).1.getD 0 default).offset +
      ((validate 10 [2, 5] [] []).1.getD 0 default).size ≤
    ((validate 10 [2, 5] [] []).1.getD 1 default).offset :=
  claim_C1_ordering 10 [2, 5] [] [] 1 (by decide) (by decide) (by decide)

/-- Claim C2 is false as stated: re-running `validate` on the readbacks of
the output for `maxExtent = 10`, `userStart = [0, -1]` moves region 1 from
offset 0 to offset 1 and emits a start-before-previous message. -/
theorem claim_C2_counterexample :
    ¬ (validate 10
        ((validate 10 [0, -1] [] []).1.map fun r => r.offset)
        ((validate 10 [0, -1] [] []).1.map fun r => r.offset + r.size - 1)
        ((validate 10 [0, -1] [] []).1.map fun r => r.binning) =
      ((validate 10 [0, -1] [] []).1, [])) := by
  decide

/-- Claim C2 (amended): for every input whose produced region list satisfies
the ordering invariant (`chainFrom 0`), re-running `validate` with
`userStart[i] = region[i].offset`,
`userEnd[i] = region[i].offset + region[i].size - 1`,
`userBin[i] = region[i].binning` and the same `maxExtent` yields exactly the
same region list and an empty message list.  (As stated the claim fails
when the first output violates ordering: see the counterexample.) -/
theorem claim_C2_idempotence (mE : Nat) (uS uE uB : List Int)
    (hchain : chainFrom 0 (validate mE uS uE uB).1 = true) :
    validate mE
      ((validate mE uS uE uB).1.map fun r => r.offset)
      ((validate mE uS uE uB).1.map fun r => r.offset + r.size - 1)
      ((validate mE uS uE uB).1.map fun r => r.binning) =
    ((validate mE uS uE uB).1, []) := by
  have hOK := validate_ok mE uS uE uB
  have hlen := validate_length mE uS uE uB
  set rs := (validate mE uS uE uB).1 with hrs
  have hle : rs.length ≤ mE := by omega
  have hself := validateFrom_self mE rs.length
    (rs.map fun r => r.offset)
    (rs.map fun r => r.offset + r.size - 1)
    (rs.map fun r => r.binning)
    rs 0 0 (by omega) hle le_rfl
    (by rw [hlen]; exact hOK) (AgreesFrom_map rs) hchain
  simp only [validate, List.length_map]
  rw [Nat.min_eq_left hle, if_neg (by omega), hself]
  rfl

/-- Witness for the amended claim C2 at spec scenario B. -/
theorem claim_C2_idempotence_witness :
    validate 10
      ((validate 10 [2, 5] [4, 9] []).1.map fun r => r.offset)
      ((validate 10 [2, 5] [4, 9] []).1.map fun r => r.offset + r.size - 1)
      ((validate 10 [2, 5] [4, 9] []).1.map fun r => r.binning) =
    ((validate 10 [2, 5] [4, 9] []).1, []) :=
  claim_C2_idempotence 10 [2, 5] [4, 9] [] (by decide)

/-- Claim C3: for every input (with `maxExtent ≥ numRegions`, which holds by
construction since `numRegions = min (length userStart) maxExtent`), every
region produced by `validate` satisfies `0 ≤ offset` and
`offset + size ≤ maxExtent`. -/
theorem claim_C3_bounds (mE : Nat) (uS uE uB : List Int) (j : Nat)
    (hmn : min uS.length mE ≤ mE)
    (hj : j < (validate mE uS uE uB).1.length) :
    0 ≤ ((validate mE uS uE uB).1.getD j default).offset ∧
    ((validate mE uS uE uB).1.getD j default).offset +
      ((validate mE uS uE uB).1.getD j default).size ≤ (mE : Int) := by
  obtain ⟨q1, q2, q3, _, _, _⟩ := RegionsOK_getD mE (min uS.length mE)
    (validate mE uS uE uB).1 0 j hj (validate_ok mE uS uE uB)
  have hlen := validate_length mE uS uE uB
  have hj2 : j < min uS.length mE := by omega
  exact ⟨q1, by omega⟩

/-- Witness for claim C3 at spec scenario B, region 1. -/
theorem claim_C3_bounds_witness :
    0 ≤ ((validate 10 [2, 5] [4, 9] []).1.getD 1 default).offset ∧
    ((validate 10 [2, 5] [4, 9] []).1.getD 1 default).offset +
      ((validate 10 [2, 5] [4, 9] []).1.getD 1 default).size ≤ (10 : Int) :=
  claim_C3_bounds 10 [2, 5] [4, 9] [] 1 (by decide) (by decide)

/-- Claim C5: for every input and every region produced by `validate`,
`size % binning = 0` and `1 ≤ binning ≤ size` (in particular the
non-dividing branch truncates the size to a multiple of the binning). -/
theorem claim_C5_divisibility (mE : Nat) (uS uE uB : List Int) (j : Nat)
    (hj : j < (validate mE uS uE uB).1.length) :
    ((validate mE uS uE uB).1.getD j default).size %
      ((validate mE uS uE uB).1.getD j default).binning = 0 ∧
    1 ≤ ((validate mE uS uE uB).1.getD j default).binning ∧
    ((validate mE uS uE uB).1.getD j default).binning ≤
      ((validate mE uS uE uB).1.getD j default).size := by
  obtain ⟨_, _, _, q4, q5, q6⟩ := RegionsOK_getD mE (min uS.length mE)
    (validate mE uS uE uB).1 0 j hj (validate_ok mE uS uE uB)
  exact ⟨q6, q4, q5⟩

/-- Witness for claim C5 at spec scenario D (`maxExtent = 5`,
`userStart = [3]`, `userEnd = [4]`, `userBin = [3]`: binning clamps to 2). -/
theorem claim_C5_divisibility_witness :
    ((validate 5 [3] [4] [3]).1.getD 0 default).size %
      ((validate 5 [3] [4] [3]).1.getD 0 default).binning = 0 ∧
    1 ≤ ((validate 5 [3] [4] [3]).1.getD 0 default).binning ∧
    ((validate 5 [3] [4] [3]).1.getD 0 default).binning ≤
      ((validate 5 [3] [4] [3]).1.getD 0 default).size :=
  claim_C5_divisibility 5 [3] [4] [3] 0 (by decide)

/-- Claim C6: when `length userStart > maxExtent`, `validate` produces
exactly `maxExtent` regions and reports the more-tracks-than-pixels message
(with the original count); otherwise it produces exactly
`length userStart` regions. -/
theorem claim_C6_count_clamp (mE : Nat) (uS uE uB : List Int) :
    (uS.length > mE →
      (validate mE uS uE uB).1.length = mE ∧
      Msg.moreTracks (uS.length : Int) ∈ (validate mE uS uE uB).2) ∧
    (uS.length ≤ mE → (validate mE uS uE uB).1.length = uS.length) := by
  have hlen := validate_length mE uS uE uB
  refine ⟨fun h => ⟨by omega, ?_⟩, fun h => by omega⟩
  simp [validate, h]

/-- Witness for claim C6: both sides, at `maxExtent = 2`,
`userStart = [0,1,2]` (clamped) and `maxExtent = 10`, `userStart = [0,1]`
(not clamped). -/
theorem claim_C6_count_clamp_witness :
    ((validate 2 [0, 1, 2] [] []).1.length = 2 ∧
      Msg.moreTracks (3 : Int) ∈ (validate 2 [0, 1, 2] [] []).2) ∧
    (validate 10 [0, 1] [] []).1.length = 2 :=
  ⟨(claim_C6_count_clamp 2 [0, 1, 2] [] []).1 (by decide),
   (claim_C6_count_clamp 10 [0, 1] [] []).2 (by decide)⟩

/-- Claim C7 (spec scenario B): `maxExtent = 10`, `userStart = [2,5]`,
`userEnd = [4,9]`, no bin array: the regions are `{offset 2, size 3,
binning 3}` and `{offset 5, size 5, binning 5}` (missing bin entries
default to `binning = size`), no messages, and after feeding these arrays
through the facade, `totalDataHeight` returns 2. -/
theorem claim_C7_scenarioB :
    validate 10 [2, 5] [4, 9] [] =
      ([⟨3, 2, 3⟩, ⟨5, 5, 5⟩], []) ∧
    CCDMultiTrack.totalDataHeight
        (CCDMultiTrack.writeInt32Array
          (CCDMultiTrack.writeInt32Array
            (CCDMultiTrack.setMaxSize CCDMultiTrack.initState 10).1
            FunctionParam.ccdMultiTrackStart [2, 5]).2.1
          FunctionParam.ccdMultiTrackEnd [4, 9]).2.1 = 2 := by
  decide

/-- Claim C8: `writeInt32Array` on an unknown parameter returns `asynError`
and leaves the whole state unchanged (and publishes nothing); on the three
known parameters it returns `asynSuccess` regardless of the values. -/
theorem claim_C8_unknown_param (s : CCDMultiTrack) (v : List Int) (k : Int) :
    CCDMultiTrack.writeInt32Array s (FunctionParam.other k) v =
      (AsynStatus.asynError, s, none) ∧
    (CCDMultiTrack.writeInt32Array s FunctionParam.ccdMultiTrackStart v).1 =
      AsynStatus.asynSuccess ∧
    (CCDMultiTrack.writeInt32Array s FunctionParam.ccdMultiTrackEnd v).1 =
      AsynStatus.asynSuccess ∧
    (CCDMultiTrack.writeInt32Array s FunctionParam.ccdMultiTrackBin v).1 =
      AsynStatus.asynSuccess := by
  refine ⟨rfl, ?_, ?_, ?_⟩ <;>
    · simp only [CCDMultiTrack.writeInt32Array]
      split_ifs <;> rfl

/-- Claim C9: writing a sequence equal to the stored one for that role is a
complete no-op (state unchanged, nothing published, no re-validation);
writing a different sequence replaces the stored sequence, re-runs
validation and publishes the adjusted arrays. -/
theorem claim_C9_short_circuit (s : CCDMultiTrack) (v : List Int) :
    (v = s.mUserStart →
      CCDMultiTrack.writeInt32Array s FunctionParam.ccdMultiTrackStart v =
        (AsynStatus.asynSuccess, s, none)) ∧
    (v ≠ s.mUserStart →
      CCDMultiTrack.writeInt32Array s FunctionParam.ccdMultiTrackStart v =
        (AsynStatus.asynSuccess,
         CCDMultiTrack.runValidate { s with mUserStart := v },
         some (CCDMultiTrack.publishArrays
           (CCDMultiTrack.runValidate { s with mUserStart := v })))) ∧
    (v = s.mUserEnd →
      CCDMultiTrack.writeInt32Array s FunctionParam.ccdMultiTrackEnd v =
        (AsynStatus.asynSuccess, s, none)) ∧
    (v ≠ s.mUserEnd →
      CCDMultiTrack.writeInt32Array s FunctionParam.ccdMultiTrackEnd v =
        (AsynStatus.asynSuccess,
         CCDMultiTrack.runValidate { s with mUserEnd := v },
         some (CCDMultiTrack.publishArrays
           (CCDMultiTrack.runValidate { s with mUserEnd := v })))) ∧
    (v = s.mUserBin →
      CCDMultiTrack.writeInt32Array s FunctionParam.ccdMultiTrackBin v =
        (AsynStatus.asynSuccess, s, none)) ∧
    (v ≠ s.mUserBin →
      CCDMultiTrack.writeInt32Array s FunctionParam.ccdMultiTrackBin v =
        (AsynStatus.asynSuccess,
         CCDMultiTrack.runValidate { s with mUserBin := v },
         some (CCDMultiTrack.publishArrays
           (CCDMultiTrack.runValidate { s with mUserBin := v })))) := by
  refine ⟨fun h => ?_, fun h => ?_, fun h => ?_, fun h => ?_,
    fun h => ?_, fun h => ?_⟩ <;>
    · simp only [CCDMultiTrack.writeInt32Array]
      first
        | rw [if_pos h]
        | rw [if_neg h]

/-- Witness for claim C9: on the freshly constructed state, writing `[]` to
start is a no-op, writing `[3]` replaces it and re-validates. -/
theorem claim_C9_short_circuit_witness :
    CCDMultiTrack.writeInt32Array CCDMultiTrack.initState
      FunctionParam.ccdMultiTrackStart [] =
      (AsynStatus.asynSuccess, CCDMultiTrack.initState, none) ∧
    CCDMultiTrack.writeInt32Array CCDMultiTrack.initState
      FunctionParam.ccdMultiTrackStart [3] =
      (AsynStatus.asynSuccess,
       CCDMultiTrack.runValidate
         { CCDMultiTrack.initState with mUserStart := [3] },
       some (CCDMultiTrack.publishArrays
         (CCDMultiTrack.runValidate
           { CCDMultiTrack.initState with mUserStart := [3] }))) :=
  ⟨(claim_C9_short_circuit CCDMultiTrack.initState []).1 rfl,
   (claim_C9_short_circuit CCDMultiTrack.initState [3]).2.1 (by decide)⟩

/-- Claim C10: in every reachable state, every region stored in the
validated list has `binning ≥ 1` (so `dataHeight` never divides by zero),
and for a track number at or past the list length `dataHeight` returns 0
without touching the list. -/
theorem claim_C10_dataHeight_safe (s : CCDMultiTrack)
    (h : CCDMultiTrack.Reachable s) :
    (∀ r ∈ s.mValid, 1 ≤ r.binning) ∧
    (∀ t, s.mValid.length ≤ t → CCDMultiTrack.dataHeight s t = 0) := by
  constructor
  · induction h with
    | init => intro r hr; exact absurd hr (List.not_mem_nil r)
    | write s2 f v hs ih =>
      cases f with
      | ccdMultiTrackStart =>
        by_cases hv : v = s2.mUserStart
        · simpa only [CCDMultiTrack.writeInt32Array, if_pos hv] using ih
        · simp only [CCDMultiTrack.writeInt32Array, if_neg hv,
            CCDMultiTrack.runValidate]
          exact validate_mem_binning _ _ _ _
      | ccdMultiTrackEnd =>
        by_cases hv : v = s2.mUserEnd
        · simpa only [CCDMultiTrack.writeInt32Array, if_pos hv] using ih
        · simp only [CCDMultiTrack.writeInt32Array, if_neg hv,
            CCDMultiTrack.runValidate]
          exact validate_mem_binning _ _ _ _
      | ccdMultiTrackBin =>
        by_cases hv : v = s2.mUserBin
        · simpa only [CCDMultiTrack.writeInt32Array, if_pos hv] using ih
        · simp only [CCDMultiTrack.writeInt32Array, if_neg hv,
            CCDMultiTrack.runValidate]
          exact validate_mem_binning _ _ _ _
      | other k => simpa only [CCDMultiTrack.writeInt32Array] using ih
    | setMax s2 n hs ih =>
      simp only [CCDMultiTrack.setMaxSize, CCDMultiTrack.runValidate]
      exact validate_mem_binning _ _ _ _
  · intro t ht
    unfold CCDMultiTrack.dataHeight
    rw [dif_neg (by omega)]

/-- Witness for claim C10 on a concrete reachable state (after writing
`userStart = [3]` into a fresh instance: one region `{1, 3, 1}`). -/
theorem claim_C10_dataHeight_safe_witness :
    1 ≤ (NDDimension.mk 1 3 1).binning ∧
    CCDMultiTrack.dataHeight
      (CCDMultiTrack.writeInt32Array CCDMultiTrack.initState
        FunctionParam.ccdMultiTrackStart [3]).2.1 7 = 0 :=
  ⟨(claim_C10_dataHeight_safe _
      (CCDMultiTrack.Reachable.write CCDMultiTrack.initState
        FunctionParam.ccdMultiTrackStart [3]
        CCDMultiTrack.Reachable.init)).1
      (NDDimension.mk 1 3 1) (by decide),
   (claim_C10_dataHeight_safe _
      (CCDMultiTrack.Reachable.write CCDMultiTrack.initState
        FunctionParam.ccdMultiTrackStart [3]
        CCDMultiTrack.Reachable.init)).2 7 (by decide)⟩
